import Mathlib

/-!
Verification of the Portainer PostgreSQL storage adapter.

This file gives a shallow embedding of the storage-adapter layer:
the JSON envelope codec (`api/database/postgres/json.go`), the
encryption-migration detector and transaction entry points (the two
connection variants), the bucket-emulation transaction protocol
(`DbTransaction`), and the single-table `PostgresStore` variant
(`api/database/postgres/store.go`), together with theorems settling the
specification claims about them.

Modelling conventions:
- Go byte strings (`[]byte`, the UTF-8 text they carry) are `List Char`.
- The external JSON library (`segmentio/encoding/json` configured with
  `SetSortMapKeys(false)` and `SetAppendNewline(false)`, and
  `encoding/json.Unmarshal`) is modelled by a concrete encoder `encJson`
  and recursive-descent reader `jsonParse` over a representative JSON
  fragment (null, booleans, natural-number literals, strings with
  quote/backslash escapes, arrays, objects; no inter-token whitespace).
- AES-GCM (`crypto/aes` + `cipher.NewGCM`) is modelled abstractly but
  concretely: the standard 12-byte GCM nonce, a 16-byte authentication
  tag appended to the ciphertext by `gcmSeal`, and `gcmOpen` recovering
  the plaintext exactly when the tag verifies. Key sizes are the AES
  sizes 16/24/32 accepted by `aes.NewCipher`.
- Database effects are explicit state: a per-bucket table is a list of
  rows, a failing SQL query is an `Except`/`Option` input, and the
  transaction entry points are functions from the pre-state.
-/

namespace Portainer

/-! ## JSON values and the encoder (model of the JSON library) -/

/-- Byte strings: Go `[]byte` payload text, one `Char` per byte. -/
abbrev Bytes := List Char

/-- JSON values, the structured payloads stored by the adapter.
Numbers are modelled as natural-number literals. -/
inductive Json where
  | null : Json
  | bool (b : Bool) : Json
  | num (n : Nat) : Json
  | str (s : String) : Json
  | arr (xs : List Json) : Json
  | obj (fs : List (String × Json)) : Json

/-- The decimal digit character for `d < 10`. -/
def digitChar (d : Nat) : Char := Char.ofNat (48 + d)

/-- Fueled accumulator loop producing the decimal digits of `n` in order;
the fuel is an upper bound on `n`, so the fallback branch is unreachable
in `natToChars`. -/
def natToCharsAux : Nat → Nat → List Char → List Char
  | 0, n, acc => digitChar (n % 10) :: acc
  | f + 1, n, acc =>
    if n < 10 then digitChar n :: acc
    else natToCharsAux f (n / 10) (digitChar (n % 10) :: acc)

/-- Decimal representation of a natural number. -/
def natToChars (n : Nat) : List Char := natToCharsAux n n []

/-- Number of decimal digits of `n`, by the same recursion as
`natToCharsAux` (proof device). -/
def numDigitsAux : Nat → Nat → Nat
  | 0, _ => 1
  | f + 1, n => if n < 10 then 1 else numDigitsAux f (n / 10) + 1

/-- JSON string escaping for one character: quote and backslash get a
backslash escape, everything else is emitted verbatim. -/
def escChar (c : Char) : List Char :=
  if c = '"' ∨ c = '\\' then ['\\', c] else [c]

/-- JSON string escaping of a character list. -/
def escList (cs : List Char) : List Char := (cs.map escChar).flatten

/-- A JSON string literal: quote, escaped body, quote. -/
def encString (s : String) : List Char := '"' :: escList s.data ++ ['"']

/-- Comma-join a list of encoded items (array/object bodies). -/
def joinComma : List (List Char) → List Char
  | [] => []
  | [x] => x
  | x :: y :: xs => x ++ ',' :: joinComma (y :: xs)

theorem sizeOf_snd_lt_of_mem (fs : List (String × Json)) (f : String × Json)
    (h : f ∈ fs) : sizeOf f.2 < sizeOf fs := by
  have h1 : sizeOf f < sizeOf fs := List.sizeOf_lt_of_mem h
  have h2 : sizeOf f.2 < sizeOf f := by
    obtain ⟨a, b⟩ := f
    simp [Prod.mk.sizeOf_spec]
  omega

/-- The JSON encoder: insertion-ordered fields, no trailing newline
(the `segmentio` encoder as configured in `MarshalObject`). -/
def encJson : Json → List Char
  | .null => "null".data
  | .bool true => "true".data
  | .bool false => "false".data
  | .num n => natToChars n
  | .str s => encString s
  | .arr xs => '[' :: joinComma (xs.attach.map (fun x => encJson x.1)) ++ [']']
  | .obj fs =>
      '{' :: joinComma (fs.attach.map
        (fun f => encString f.1.1 ++ ':' :: encJson f.1.2)) ++ ['}']
termination_by j => sizeOf j
decreasing_by
  · exact Nat.lt_trans (List.sizeOf_lt_of_mem x.2)
      (by simp [Json.arr.sizeOf_spec])
  · exact Nat.lt_trans (sizeOf_snd_lt_of_mem fs f.1 f.2)
      (by simp [Json.obj.sizeOf_spec])

/-- Structural measure used as parser fuel: one unit per JSON node. -/
def muJson : Json → Nat
  | .null | .bool _ | .num _ | .str _ => 1
  | .arr xs => 1 + (xs.attach.map (fun x => muJson x.1)).sum
  | .obj fs => 1 + (fs.attach.map (fun f => muJson f.1.2)).sum
termination_by j => sizeOf j
decreasing_by
  · exact Nat.lt_trans (List.sizeOf_lt_of_mem x.2)
      (by simp [Json.arr.sizeOf_spec])
  · exact Nat.lt_trans (sizeOf_snd_lt_of_mem fs f.1 f.2)
      (by simp [Json.obj.sizeOf_spec])

/-! ## JSON reader (model of `json.Unmarshal` structural parsing) -/

/-- Read the remainder of a JSON string literal after the opening quote:
a backslash makes the next character literal, a bare quote ends the
literal. Returns the unescaped body and the rest of the input. -/
def parseStringRest : List Char → Option (List Char × List Char)
  | [] => none
  | c :: r =>
    if c = '"' then some ([], r)
    else if c = '\\' then
      match r with
      | [] => none
      | c2 :: r2 => (parseStringRest r2).map (fun p => (c2 :: p.1, p.2))
    else (parseStringRest r).map (fun p => (c :: p.1, p.2))

/-- Split the longest leading run of decimal digits from the input. -/
def splitDigits : List Char → List Char × List Char
  | [] => ([], [])
  | c :: r =>
    if c.isDigit then
      let p := splitDigits r
      (c :: p.1, p.2)
    else ([], c :: r)

/-- Numeric value of a digit run. -/
def digitsToNat (l : List Char) : Nat :=
  l.foldl (fun a c => a * 10 + (c.toNat - 48)) 0

/-- Read the comma-separated elements of a non-empty array body followed
by the closing bracket, using `pv` for each element; the fuel bounds the
number of elements. -/
def parseElemsWith (pv : List Char → Option (Json × List Char)) :
    Nat → List Char → Option (List Json × List Char)
  | 0, _ => none
  | f + 1, l =>
    match pv l with
    | none => none
    | some (j, r) =>
      if r.head? = some ',' then
        (parseElemsWith pv f r.tail).map (fun p => (j :: p.1, p.2))
      else if r.head? = some ']' then some ([j], r.tail)
      else none

/-- Read the comma-separated fields of a non-empty object body followed
by the closing brace, using `pv` for each field value. -/
def parseFieldsWith (pv : List Char → Option (Json × List Char)) :
    Nat → List Char → Option (List (String × Json) × List Char)
  | 0, _ => none
  | f + 1, l =>
    if l.head? = some '"' then
      match parseStringRest l.tail with
      | none => none
      | some (k, r1) =>
        if r1.head? = some ':' then
          match pv r1.tail with
          | none => none
          | some (v, r3) =>
            if r3.head? = some ',' then
              (parseFieldsWith pv f r3.tail).map
                (fun p => ((String.mk k, v) :: p.1, p.2))
            else if r3.head? = some '}' then
              some ([(String.mk k, v)], r3.tail)
            else none
        else none
    else none

/-- Read one JSON value; the fuel bounds the nesting depth. -/
def parseVal : Nat → List Char → Option (Json × List Char)
  | 0, _ => none
  | _ + 1, [] => none
  | f + 1, c :: r =>
    if c = '"' then
      (parseStringRest r).map (fun p => (Json.str (String.mk p.1), p.2))
    else if c = '[' then
      if r.head? = some ']' then some (Json.arr [], r.tail)
      else (parseElemsWith (parseVal f) (r.length + 1) r).map
          (fun p => (Json.arr p.1, p.2))
    else if c = '{' then
      if r.head? = some '}' then some (Json.obj [], r.tail)
      else (parseFieldsWith (parseVal f) (r.length + 1) r).map
          (fun p => (Json.obj p.1, p.2))
    else if c = 'n' then
      match r with
      | 'u' :: 'l' :: 'l' :: r2 => some (Json.null, r2)
      | _ => none
    else if c = 't' then
      match r with
      | 'r' :: 'u' :: 'e' :: r2 => some (Json.bool true, r2)
      | _ => none
    else if c = 'f' then
      match r with
      | 'a' :: 'l' :: 's' :: 'e' :: r2 => some (Json.bool false, r2)
      | _ => none
    else if c.isDigit then
      some (Json.num (digitsToNat (splitDigits (c :: r)).1),
        (splitDigits (c :: r)).2)
    else none

/-- Separator context in which a JSON value may legally stop: end of
input, or a following comma or closing bracket/brace (proof device for
the round-trip argument). -/
def SepOK : List Char → Bool
  | [] => true
  | c :: _ => c == ',' || c == ']' || c == '}'

/-- Parse a complete JSON document: one value consuming all input. -/
def jsonParse (l : List Char) : Option Json :=
  match parseVal (l.length + 1) l with
  | some (j, []) => some j
  | _ => none

/-! ## Envelope codec (`api/database/postgres/json.go`) -/

/-- The literal byte string `"false"`, special-cased by `decrypt`. -/
def falseLit : Bytes := ['f', 'a', 'l', 's', 'e']

/-- GCM nonce size (bytes), `gcm.NonceSize()` for AES-GCM. -/
def gcmNonceSize : Nat := 12

/-- GCM authentication tag size (bytes), `gcm.Overhead()`. -/
def gcmTagSize : Nat := 16

/-- Whether `aes.NewCipher` accepts the key (16/24/32 bytes). -/
def aesKeySizeOK (k : Bytes) : Bool :=
  k.length == 16 || k.length == 24 || k.length == 32

/-- Model authentication tag over (nonce, key, plaintext); any concrete
16-byte value determined by the inputs serves the claims here. -/
def gcmTag (nonce key pt : Bytes) : Bytes :=
  List.replicate gcmTagSize
    (Char.ofNat ((nonce.length * 31 + key.length * 17 + pt.length) % 64 + 48))

/-- `gcm.Seal(nil, nonce, pt, nil)`: ciphertext (modelled as the
plaintext itself) followed by the 16-byte authentication tag. -/
def gcmSeal (nonce key pt : Bytes) : Bytes := pt ++ gcmTag nonce key pt

/-- `gcm.Open(nil, nonce, data, nil)`: succeeds exactly on a value
produced by `gcmSeal` with the same nonce and key. -/
def gcmOpen (nonce key data : Bytes) : Option Bytes :=
  if data.length < gcmTagSize then none
  else if gcmSeal nonce key (data.take (data.length - gcmTagSize)) = data
  then some (data.take (data.length - gcmTagSize))
  else none

/-- Failure modes of `decrypt`/`encrypt`: cipher construction failed
(bad key size), input shorter than the nonce, or authentication
failure in `gcm.Open`. -/
inductive DecryptErr where
  | cipherCreate : DecryptErr
  | tooShort : DecryptErr
  | openFailed : DecryptErr
deriving DecidableEq

/-- `encrypt(plaintext, passphrase)` with the random nonce passed in
explicitly: `gcm.Seal(nonce, nonce, plaintext, nil)` prepends the nonce
to the sealed bytes. -/
def encrypt (plaintext passphrase nonce : Bytes) : Except DecryptErr Bytes :=
  if aesKeySizeOK passphrase then
    .ok (nonce ++ gcmSeal nonce passphrase plaintext)
  else .error .cipherCreate

/-- `decrypt(encrypted, passphrase)`: the literal `"false"` is returned
unchanged before anything else; then cipher construction, the nonce-size
lower bound, and authenticated opening, in the source's order. -/
def decrypt (encrypted passphrase : Bytes) : Except DecryptErr Bytes :=
  if encrypted = falseLit then .ok falseLit
  else if ¬ aesKeySizeOK passphrase then .error .cipherCreate
  else if encrypted.length < gcmNonceSize then .error .tooShort
  else
    match gcmOpen (encrypted.take gcmNonceSize) passphrase
        (encrypted.drop gcmNonceSize) with
    | some pt => .ok pt
    | none => .error .openFailed

/-- The connection fields the codec reads: the key and the
encryption-enabled flag toggled by `SetEncrypted`. -/
structure DbConnection where
  EncryptionKey : Option Bytes
  isEncrypted : Bool

/-- `getEncryptionKey`: nil unless encryption is enabled. -/
def DbConnection.getEncryptionKey (c : DbConnection) : Option Bytes :=
  if ¬ c.isEncrypted then none else c.EncryptionKey

/-- A value passed to `MarshalObject`: either a plain Go string (the
version-marker special case) or a structured JSON-serializable value. -/
inductive GoValue where
  | str (s : String) : GoValue
  | json (j : Json) : GoValue

/-- The destination container passed to `UnmarshalObject`: a `*string`
or a structured destination; each carries its current contents. -/
inductive Dest where
  | dstr (s : String) : Dest
  | djson (j : Option Json) : Dest

/-- The only non-nil error `UnmarshalObject` can return: a decryption
failure wrapped with "Failed decrypting object". -/
inductive UnmarshalErr where
  | decryptFailed (e : DecryptErr) : UnmarshalErr
deriving DecidableEq

/-- The buffer `MarshalObject` builds before any encryption: a plain
string is written raw (`buf.WriteString`), any other value is
JSON-encoded. -/
def marshalBuf : GoValue → Bytes
  | .str s => s.data
  | .json j => encJson j

/-- `MarshalObject`: strings are written raw, other values are
JSON-encoded; the result is encrypted when `getEncryptionKey` is
non-nil. The fresh random nonce is an explicit argument. -/
def MarshalObject (c : DbConnection) (nonce : Bytes) (v : GoValue) :
    Except DecryptErr Bytes :=
  match c.getEncryptionKey with
  | none => .ok (marshalBuf v)
  | some k => encrypt (marshalBuf v) k nonce

/-- `json.Unmarshal(data, object)`: `some` is success with the updated
destination, `none` is a non-nil unmarshal error. A JSON string or null
can populate a `*string`; any parsed value populates a structured
destination; unparseable input fails either. -/
def jsonUnmarshalInto (data : Bytes) : Dest → Option Dest
  | .dstr prior =>
    match jsonParse data with
    | some (.str w) => some (.dstr w)
    | some .null => some (.dstr prior)
    | _ => none
  | .djson _ =>
    match jsonParse data with
    | some j => some (.djson (some j))
    | none => none

/-- The post-decryption body of `UnmarshalObject`: on unmarshal failure
a `*string` destination receives the raw bytes verbatim; any other
destination hits `errors.Wrap(err, e.Error())` where `err` is nil at
that point — and `github.com/pkg/errors.Wrap` returns nil for a nil
`err`, so no error is reported and the destination is left unchanged. -/
def unmarshalBody (data : Bytes) (d : Dest) : Option UnmarshalErr × Dest :=
  match jsonUnmarshalInto data d with
  | some d2 => (none, d2)
  | none =>
    match d with
    | .dstr _ => (none, .dstr (String.mk data))
    | .djson prior => (none, .djson prior)

/-- `UnmarshalObject`: decrypt when a key is configured (a decryption
failure is wrapped and returned), then unmarshal via `unmarshalBody`. -/
def UnmarshalObject (c : DbConnection) (data : Bytes) (d : Dest) :
    Option UnmarshalErr × Dest :=
  match c.getEncryptionKey with
  | some k =>
    match decrypt data k with
    | .error e => (some (.decryptFailed e), d)
    | .ok data2 => unmarshalBody data2 d
  | none => unmarshalBody data d

/-- Whether a value survives the marshal/unmarshal round trip: every
structured value does; a plain string does unless its raw bytes already
parse as a JSON string literal or JSON null (then `json.Unmarshal` into
the `*string` succeeds with the decoded/unchanged value instead of
triggering the raw-bytes fallback). -/
def stringSafeB (v : GoValue) : Bool :=
  match v with
  | .json _ => true
  | .str s =>
    match jsonParse s.data with
    | some (.str _) => false
    | some .null => false
    | _ => true

/-- The zero-valued destination a caller would pass for the value. -/
def zeroDest : GoValue → Dest
  | .str _ => .dstr ""
  | .json _ => .djson none

/-- The destination contents after a successful round trip of `v`. -/
def destOf : GoValue → Dest
  | .str s => .dstr s
  | .json j => .djson (some j)

/-! ## Migration detector (`NeedsEncryptionMigration`, both variants) -/

/-- The detector's failure modes: no connection (first variant only),
a failed existence query for either marker table, and the two fatal
states `ErrHaveEncryptedAndUnencrypted` / `ErrHaveEncryptedWithNoKey`. -/
inductive MigrationError where
  | noConnection : MigrationError
  | checkUnencryptedFailed : MigrationError
  | checkEncryptedFailed : MigrationError
  | haveEncryptedAndUnencrypted : MigrationError
  | haveEncryptedWithNoKey : MigrationError
deriving DecidableEq

/-- `NeedsEncryptionMigration` (connection file variant): nil-DB guard,
the two marker-table existence checks with wrapped query errors, then
the decision switch over (unencrypted-exists, encrypted-exists,
key-present). -/
def NeedsEncryptionMigrationV1 (hasDB : Bool)
    (unencCheck encCheck : Except Unit Bool) (keyPresent : Bool) :
    Bool × Option MigrationError :=
  if ¬ hasDB then (false, some .noConnection)
  else
    match unencCheck with
    | .error _ => (false, some .checkUnencryptedFailed)
    | .ok haveUnencrypted =>
      match encCheck with
      | .error _ => (false, some .checkEncryptedFailed)
      | .ok haveEncrypted =>
        if haveUnencrypted && haveEncrypted then
          (false, some .haveEncryptedAndUnencrypted)
        else if haveUnencrypted && keyPresent then (true, none)
        else if haveEncrypted && ¬ keyPresent then
          (false, some .haveEncryptedWithNoKey)
        else (false, none)

/-- `NeedsEncryptionMigration` (second variant): no nil-DB guard, raw
propagation of existence-query errors, same decision switch. -/
def NeedsEncryptionMigrationV2
    (unencCheck encCheck : Except Unit Bool) (keyPresent : Bool) :
    Bool × Option MigrationError :=
  match unencCheck with
  | .error _ => (false, some .checkUnencryptedFailed)
  | .ok haveUnencrypted =>
    match encCheck with
    | .error _ => (false, some .checkEncryptedFailed)
    | .ok haveEncrypted =>
      if haveUnencrypted && haveEncrypted then
        (false, some .haveEncryptedAndUnencrypted)
      else if haveUnencrypted && keyPresent then (true, none)
      else if haveEncrypted && ¬ keyPresent then
        (false, some .haveEncryptedWithNoKey)
      else (false, none)

/-! ## Transaction entry points (`UpdateTx` / `ViewTx`) -/

/-- Outcome of the function passed to `UpdateTx`, applied to the
pre-state it observes through the transaction handle: it returns nil
having built state `s`, returns an error, or panics; in the latter two
cases `s` records the writes it had performed inside the transaction. -/
inductive FnResult (σ : Type) where
  | ok (s : σ) : FnResult σ
  | err (e : String) (s : σ) : FnResult σ
  | panicked (p : String) (s : σ) : FnResult σ

/-- Terminal outcome of an `UpdateTx`/`ViewTx` call: the transaction
committed, the call returned an error, or a panic propagated out. -/
inductive TxOutcome where
  | committed : TxOutcome
  | errored (e : String) : TxOutcome
  | panicked (p : String) : TxOutcome
deriving DecidableEq

/-- `UpdateTx`: nil-DB guard, begin, run `fn`; commit on nil error,
roll back (discarding the transaction's writes) and return the original
error otherwise; on panic, roll back and re-raise. The resulting
committed database state is returned alongside the outcome. -/
def UpdateTx {σ : Type} (hasDB beginOk : Bool) (db : σ)
    (fn : σ → FnResult σ) : TxOutcome × σ :=
  if ¬ hasDB then (.errored "database connection is not initialized", db)
  else if ¬ beginOk then (.errored "failed to begin transaction", db)
  else
    match fn db with
    | .ok s2 => (.committed, s2)
    | .err e _ => (.errored e, db)
    | .panicked p _ => (.panicked p, db)

/-- `ViewTx` simply delegates to `UpdateTx` in both variants. -/
def ViewTx {σ : Type} (hasDB beginOk : Bool) (db : σ)
    (fn : σ → FnResult σ) : TxOutcome × σ :=
  UpdateTx hasDB beginOk db fn

/-! ## Identifier allocation (`GetNextIdentifier`, three variants) -/

/-- A numeric-bucket row: integer id and encoded payload. -/
abbrev Row := Int × Bytes

/-- A numeric bucket's rows; `none` models a bucket whose query errors
(for instance, the table does not exist). -/
abbrev Table := List Row

/-- SQL `MAX(id)` with `COALESCE(..., 0)`: 0 on an empty bucket. -/
def sqlMaxIds : List Int → Int
  | [] => 0
  | x :: xs => xs.foldl max x

/-- The query `SELECT COALESCE(MAX(id), 0) + 1 FROM bucket`. -/
def queryNextIdentifier (tbl : Option Table) : Except Unit Int :=
  match tbl with
  | none => .error ()
  | some rows => .ok (sqlMaxIds (rows.map Prod.fst) + 1)

namespace DbConnectionV1

/-- Connection-level `GetNextIdentifier` (connection file variant):
logs and returns 1 when the query errors. -/
def GetNextIdentifier (tbl : Option Table) : Int :=
  match queryNextIdentifier tbl with
  | .error _ => 1
  | .ok n => n

end DbConnectionV1

namespace DbConnectionV2

/-- Connection-level `GetNextIdentifier` (second variant): logs and
returns 0 when the query errors. -/
def GetNextIdentifier (tbl : Option Table) : Int :=
  match queryNextIdentifier tbl with
  | .error _ => 0
  | .ok n => n

end DbConnectionV2

namespace DbTransaction

/-- Transaction-level `GetNextIdentifier`: logs and returns 0 when the
query errors. A pure read: it does not modify the bucket. -/
def GetNextIdentifier (tbl : Option Table) : Int :=
  match queryNextIdentifier tbl with
  | .error _ => 0
  | .ok n => n

/-- Two sequential `GetNextIdentifier` calls within one transaction
with no intervening operations: the bucket state is unchanged between
the calls. -/
def twoSequentialNextIdentifiers (tbl : Option Table) : Int × Int :=
  (GetNextIdentifier tbl, GetNextIdentifier tbl)

end DbTransaction

/-! ## Bucket CRUD and scans (`DbTransaction`) -/

/-- A string-keyed bucket: rows of key and stored payload. -/
abbrev KTable := List (String × Bytes)

/-- `SELECT data FROM bucket WHERE id = key`: first matching row. -/
def lookupKey (tbl : KTable) (key : String) : Option Bytes :=
  match tbl.find? (fun e => e.1 == key) with
  | some e => some e.2
  | none => none

/-- `GetObject` failures: the distinguished wrapped
`ErrObjectNotFound` carrying bucket and key, or a decode failure of the
stored payload. -/
inductive GetErr where
  | objectNotFound (bucket : String) (key : String) : GetErr
  | decodeFailed : GetErr
deriving DecidableEq

/-- Scan failures for `GetAll`/`GetAllWithKeyPrefix`: a row failed to
decode, or the visit function returned an error (aborting the scan). -/
inductive ScanErr where
  | decodeFailed : ScanErr
  | visitFailed (e : String) : ScanErr
deriving DecidableEq

namespace DbTransaction

/-- `DbTransaction.GetObject`: `sql.ErrNoRows` becomes the wrapped
object-not-found error carrying bucket and key; a matching row is
JSON-decoded into the destination. -/
def GetObject (tbl : KTable) (bucketName key : String) :
    Except GetErr Json :=
  match lookupKey tbl key with
  | none => .error (.objectNotFound bucketName key)
  | some data =>
    match jsonParse data with
    | some j => .ok j
    | none => .error .decodeFailed

/-- `DbTransaction.GetAll`: scan every row of the bucket in order,
decode it, and pass the decoded object to the visit function; a decode
or visit error aborts the remaining scan. Returns the objects passed to
the visit function and the error, if any. -/
def GetAll (rows : List Bytes) (visit : Json → Option String) :
    List Json × Option ScanErr :=
  match rows with
  | [] => ([], none)
  | r :: rs =>
    match jsonParse r with
    | none => ([], some ScanErr.decodeFailed)
    | some j =>
      match visit j with
      | some e => ([j], some (ScanErr.visitFailed e))
      | none => (j :: (GetAll rs visit).1, (GetAll rs visit).2)

end DbTransaction

/-- SQL `LIKE` matching with the default backslash escape character:
percent matches any run, underscore any single character, a backslash
makes the following pattern character literal. Fueled by an upper bound
on the total pattern and text length. -/
def likeMatchF : Nat → List Char → List Char → Bool
  | 0, _, _ => false
  | f + 1, pat, txt =>
    match pat with
    | [] => txt.isEmpty
    | c :: ps =>
      if c = '%' then
        likeMatchF f ps txt ||
          (match txt with
           | [] => false
           | _ :: ts => likeMatchF f pat ts)
      else if c = '\\' then
        match ps, txt with
        | pc :: ps2, tc :: ts => pc == tc && likeMatchF f ps2 ts
        | _, _ => false
      else if c = '_' then
        match txt with
        | [] => false
        | _ :: ts => likeMatchF f ps ts
      else
        match txt with
        | [] => false
        | tc :: ts => c == tc && likeMatchF f ps ts

/-- SQL `LIKE pattern` applied to a text. -/
def likeMatch (pat txt : List Char) : Bool :=
  likeMatchF (pat.length + txt.length + 1) pat txt

/-- Whether a key prefix is free of `LIKE` metacharacters. -/
def noLikeMeta (p : List Char) : Bool :=
  p.all (fun c => !(c == '%' || c == '_' || c == '\\'))

namespace DbTransaction

/-- `DbTransaction.GetAllWithKeyPrefix`: the query
`SELECT data FROM bucket WHERE id LIKE keyPrefix || percent` — the rows
whose keys match the unescaped `LIKE` pattern — then the same scan loop
as `GetAll`. -/
def GetAllWithKeyPrefix (rows : List (List Char × Bytes))
    (keyPref : List Char) (visit : Json → Option String) :
    List Json × Option ScanErr :=
  GetAll
    ((rows.filter (fun row => likeMatch (keyPref ++ ['%']) row.1)).map
      Prod.snd)
    visit

end DbTransaction

/-! ## Single-table store variant (`api/database/postgres/store.go`) -/

/-- The `portainer_buckets` table: rows keyed by (bucket name, key)
with a payload value; the primary key makes each pair unique. -/
abbrev KVStore := List ((String × String) × Bytes)

/-- A `PostgresTx` handle; `writeable` is false for `View`
transactions and true for `Update` transactions. -/
structure PostgresTx where
  writeable : Bool

namespace PostgresStore

/-- The transaction handle `View` passes to its function. -/
def viewTx : PostgresTx := { writeable := false }

/-- The transaction handle `Update` passes to its function. -/
def updateTx : PostgresTx := { writeable := true }

end PostgresStore

/-- `INSERT ... ON CONFLICT (bucket_name, key) DO UPDATE SET value`. -/
def kvUpsert (st : KVStore) (b k : String) (v : Bytes) : KVStore :=
  if st.any (fun e => e.1 == (b, k)) then
    st.map (fun e => if e.1 == (b, k) then (e.1, v) else e)
  else st ++ [((b, k), v)]

/-- `DELETE FROM portainer_buckets WHERE bucket_name = b AND key = k`. -/
def kvDelete (st : KVStore) (b k : String) : KVStore :=
  st.filter (fun e => !(e.1 == (b, k)))

namespace PostgresBucket

/-- `PostgresBucket.Put`: rejected with "transaction is read-only"
before any SQL executes when the transaction is not writeable;
otherwise an upsert into `portainer_buckets`. -/
def Put (tx : PostgresTx) (st : KVStore) (bucketName key : String)
    (v : Bytes) : Option String × KVStore :=
  if ¬ tx.writeable then (some "transaction is read-only", st)
  else (none, kvUpsert st bucketName key v)

/-- `PostgresBucket.Delete`: same read-only guard, then a delete. -/
def Delete (tx : PostgresTx) (st : KVStore) (bucketName key : String) :
    Option String × KVStore :=
  if ¬ tx.writeable then (some "transaction is read-only", st)
  else (none, kvDelete st bucketName key)

/-- `PostgresBucket.Get`: point lookup; nil on any error or no row. -/
def Get (st : KVStore) (bucketName key : String) : Option Bytes :=
  match st.find? (fun e => e.1 == (bucketName, key)) with
  | some e => some e.2
  | none => none

end PostgresBucket

/-! ## Lemmas: encoder unfolding -/

theorem encJson_arr (xs : List Json) :
    encJson (.arr xs) = '[' :: joinComma (xs.map encJson) ++ [']'] := by
  rw [encJson, List.attach_map_coe xs encJson]

theorem encJson_obj (fs : List (String × Json)) :
    encJson (.obj fs) =
      '{' :: joinComma (fs.map (fun f => encString f.1 ++ ':' :: encJson f.2))
        ++ ['}'] := by
  rw [encJson,
    List.attach_map_coe fs (fun f => encString f.1 ++ ':' :: encJson f.2)]

theorem muJson_arr (xs : List Json) :
    muJson (.arr xs) = 1 + (xs.map muJson).sum := by
  rw [muJson, List.attach_map_coe xs muJson]

theorem muJson_obj (fs : List (String × Json)) :
    muJson (.obj fs) = 1 + (fs.map (fun f => muJson f.2)).sum := by
  rw [muJson, List.attach_map_coe fs (fun f => muJson f.2)]

theorem muJson_pos (j : Json) : 1 ≤ muJson j := by
  cases j with
  | null => simp [muJson]
  | bool b => simp [muJson]
  | num n => simp [muJson]
  | str s => simp [muJson]
  | arr xs => rw [muJson_arr]; omega
  | obj fs => rw [muJson_obj]; omega

/-! ## Lemmas: decimal digits -/

theorem digitChar_isDigit (d : Nat) (h : d < 10) :
    (digitChar d).isDigit = true := by
  interval_cases d <;> decide

theorem digitChar_toNat (d : Nat) (h : d < 10) :
    (digitChar d).toNat = 48 + d := by
  interval_cases d <;> decide

theorem natToCharsAux_all_digits (f n : Nat) (acc : List Char)
    (hacc : ∀ c ∈ acc, c.isDigit = true) :
    ∀ c ∈ natToCharsAux f n acc, c.isDigit = true := by
  induction f generalizing n acc with
  | zero =>
    intro c hc
    rw [natToCharsAux] at hc
    rcases List.mem_cons.mp hc with h | h
    · subst h; exact digitChar_isDigit _ (Nat.mod_lt _ (by omega))
    · exact hacc c h
  | succ f ih =>
    intro c hc
    rw [natToCharsAux] at hc
    by_cases h10 : n < 10
    · rw [if_pos h10] at hc
      rcases List.mem_cons.mp hc with h | h
      · subst h; exact digitChar_isDigit _ h10
      · exact hacc c h
    · rw [if_neg h10] at hc
      refine ih (n / 10) _ ?_ c hc
      intro c2 hc2
      rcases List.mem_cons.mp hc2 with h | h
      · subst h; exact digitChar_isDigit _ (Nat.mod_lt _ (by omega))
      · exact hacc c2 h

theorem natToCharsAux_ne_nil (f n : Nat) (acc : List Char) :
    natToCharsAux f n acc ≠ [] := by
  induction f generalizing n acc with
  | zero => rw [natToCharsAux]; simp
  | succ f ih =>
    rw [natToCharsAux]
    by_cases h10 : n < 10
    · rw [if_pos h10]; simp
    · rw [if_neg h10]; exact ih _ _

theorem natToChars_all_digits (n : Nat) :
    ∀ c ∈ natToChars n, c.isDigit = true :=
  natToCharsAux_all_digits n n [] (by intro c hc; cases hc)

theorem natToChars_ne_nil (n : Nat) : natToChars n ≠ [] :=
  natToCharsAux_ne_nil n n []

theorem natToCharsAux_foldl (f : Nat) :
    ∀ (n a : Nat) (acc : List Char), n ≤ f →
      List.foldl (fun a c => a * 10 + (c.toNat - 48)) a
          (natToCharsAux f n acc) =
        List.foldl (fun a c => a * 10 + (c.toNat - 48))
          (a * 10 ^ numDigitsAux f n + n) acc := by
  induction f with
  | zero =>
    intro n a acc hn
    have hn0 : n = 0 := Nat.le_zero.mp hn
    subst hn0
    rw [natToCharsAux, numDigitsAux]
    simp [digitChar_toNat 0 (by omega)]
  | succ f ih =>
    intro n a acc hn
    rw [natToCharsAux, numDigitsAux]
    by_cases h10 : n < 10
    · rw [if_pos h10, if_pos h10]
      simp [digitChar_toNat n h10]
    · rw [if_neg h10, if_neg h10]
      have hdiv : n / 10 ≤ f := by
        have hlt : n / 10 < n :=
          Nat.div_lt_self (by omega) (by norm_num)
        omega
      rw [ih (n / 10) a _ hdiv]
      simp only [List.foldl_cons]
      have htn : (digitChar (n % 10)).toNat - 48 = n % 10 := by
        rw [digitChar_toNat _ (Nat.mod_lt _ (by omega))]
        omega
      rw [htn]
      congr 1
      rw [pow_succ]
      have := Nat.div_add_mod n 10
      ring_nf
      omega

theorem digitsToNat_natToChars (n : Nat) :
    digitsToNat (natToChars n) = n := by
  rw [digitsToNat, natToChars, natToCharsAux_foldl n n 0 [] (Nat.le_refl n)]
  simp

theorem splitDigits_append (ds : List Char)
    (hds : ∀ c ∈ ds, c.isDigit = true) (rest : List Char)
    (hrest : ∀ c r2, rest = c :: r2 → c.isDigit = false) :
    splitDigits (ds ++ rest) = (ds, rest) := by
  induction ds with
  | nil =>
    simp only [List.nil_append]
    cases rest with
    | nil => rfl
    | cons c r2 =>
      rw [splitDigits]
      rw [hrest c r2 rfl]
      simp
  | cons c cs ih =>
    have hc : c.isDigit = true := hds c (List.mem_cons_self c cs)
    rw [List.cons_append, splitDigits, hc]
    simp only [if_true]
    rw [ih (fun c2 hc2 => hds c2 (List.mem_cons_of_mem c hc2))]

/-! ## Lemmas: string-literal reader -/

theorem parseStringRest_quote (r : List Char) :
    parseStringRest ('"' :: r) = some ([], r) := by
  rw [parseStringRest.eq_def]
  simp

theorem parseStringRest_escaped (c : Char) (r : List Char) :
    parseStringRest ('\\' :: c :: r) =
      (parseStringRest r).map (fun p => (c :: p.1, p.2)) := by
  rw [parseStringRest.eq_def]
  simp

theorem parseStringRest_other (c : Char) (r : List Char)
    (h1 : c ≠ '"') (h2 : c ≠ '\\') :
    parseStringRest (c :: r) =
      (parseStringRest r).map (fun p => (c :: p.1, p.2)) := by
  rw [parseStringRest.eq_def]
  simp only [if_neg h1, if_neg h2]

theorem escList_nil : escList [] = [] := rfl

theorem escList_cons (c : Char) (cs : List Char) :
    escList (c :: cs) = escChar c ++ escList cs := by
  rw [escList, escList, List.map_cons, List.flatten_cons]

theorem encJson_null : encJson .null = "null".data := by
  rw [encJson]

theorem encJson_true : encJson (.bool true) = "true".data := by
  rw [encJson]

theorem encJson_false : encJson (.bool false) = "false".data := by
  rw [encJson]

theorem encJson_num (n : Nat) : encJson (.num n) = natToChars n := by
  rw [encJson]

theorem encJson_str (s : String) : encJson (.str s) = encString s := by
  rw [encJson]

theorem parseStringRest_esc (cs : List Char) (rest : List Char) :
    parseStringRest (escList cs ++ '"' :: rest) = some (cs, rest) := by
  induction cs with
  | nil =>
    rw [escList_nil, List.nil_append, parseStringRest_quote]
  | cons c cs ih =>
    rw [escList_cons, List.append_assoc, escChar]
    by_cases hc : c = '"' ∨ c = '\\'
    · rw [if_pos hc]
      simp only [List.cons_append, List.nil_append]
      rw [parseStringRest_escaped, ih]
      rfl
    · rw [if_neg hc]
      push_neg at hc
      simp only [List.cons_append, List.nil_append]
      rw [parseStringRest_other c _ hc.1 hc.2, ih]
      rfl

/-! ## Lemmas: encoder shape facts -/

theorem encLen_pos (j : Json) : 1 ≤ (encJson j).length := by
  cases j with
  | null => rw [encJson_null]; simp
  | bool b =>
    cases b with
    | false => rw [encJson_false]; simp
    | true => rw [encJson_true]; simp
  | num n =>
    rw [encJson_num]
    cases h : natToChars n with
    | nil => exact absurd h (natToChars_ne_nil n)
    | cons c cs => simp
  | str s => rw [encJson_str, encString]; simp
  | arr xs => rw [encJson_arr]; simp
  | obj fs => rw [encJson_obj]; simp

theorem encHead (j : Json) :
    ∃ c cs, encJson j = c :: cs ∧
      (c = 'n' ∨ c = 't' ∨ c = 'f' ∨ c = '"' ∨ c = '[' ∨ c = '{' ∨
        c.isDigit = true) := by
  cases j with
  | null => exact ⟨'n', _, encJson_null, by simp⟩
  | bool b =>
    cases b with
    | false => exact ⟨'f', _, encJson_false, by simp⟩
    | true => exact ⟨'t', _, encJson_true, by simp⟩
  | num n =>
    cases h : natToChars n with
    | nil => exact absurd h (natToChars_ne_nil n)
    | cons c cs =>
      refine ⟨c, cs, by rw [encJson_num, h], ?_⟩
      have := natToChars_all_digits n
      rw [h] at this
      exact Or.inr (Or.inr (Or.inr (Or.inr (Or.inr (Or.inr
        (this c (List.mem_cons_self c cs)))))))
  | str s =>
    exact ⟨'"', escList s.data ++ ['"'],
      by rw [encJson_str, encString, List.cons_append], by simp⟩
  | arr xs => exact ⟨'[', _, encJson_arr xs, by simp⟩
  | obj fs => exact ⟨'{', _, encJson_obj fs, by simp⟩

/-- A character that can start an encoded JSON value is never one of
the separators. -/
theorem encHead_ne_sep (c : Char)
    (h : c = 'n' ∨ c = 't' ∨ c = 'f' ∨ c = '"' ∨ c = '[' ∨ c = '{' ∨
      c.isDigit = true) :
    c ≠ ',' ∧ c ≠ ']' ∧ c ≠ '}' := by
  rcases h with h | h | h | h | h | h | h
  · subst h; refine ⟨by decide, by decide, by decide⟩
  · subst h; refine ⟨by decide, by decide, by decide⟩
  · subst h; refine ⟨by decide, by decide, by decide⟩
  · subst h; refine ⟨by decide, by decide, by decide⟩
  · subst h; refine ⟨by decide, by decide, by decide⟩
  · subst h; refine ⟨by decide, by decide, by decide⟩
  · refine ⟨?_, ?_, ?_⟩ <;> intro he <;> subst he <;> simp at h

/-! ## Lemmas: parseVal branch unfolding -/

theorem parseVal_succ (f : Nat) (c : Char) (r : List Char) :
    parseVal (f + 1) (c :: r) =
      (if c = '"' then
        (parseStringRest r).map (fun p => (Json.str (String.mk p.1), p.2))
      else if c = '[' then
        if r.head? = some ']' then some (Json.arr [], r.tail)
        else (parseElemsWith (parseVal f) (r.length + 1) r).map
            (fun p => (Json.arr p.1, p.2))
      else if c = '{' then
        if r.head? = some '}' then some (Json.obj [], r.tail)
        else (parseFieldsWith (parseVal f) (r.length + 1) r).map
            (fun p => (Json.obj p.1, p.2))
      else if c = 'n' then
        match r with
        | 'u' :: 'l' :: 'l' :: r2 => some (Json.null, r2)
        | _ => none
      else if c = 't' then
        match r with
        | 'r' :: 'u' :: 'e' :: r2 => some (Json.bool true, r2)
        | _ => none
      else if c = 'f' then
        match r with
        | 'a' :: 'l' :: 's' :: 'e' :: r2 => some (Json.bool false, r2)
        | _ => none
      else if c.isDigit then
        some (Json.num (digitsToNat (splitDigits (c :: r)).1),
          (splitDigits (c :: r)).2)
      else none) := rfl

theorem parseElemsWith_succ (pv : List Char → Option (Json × List Char))
    (f : Nat) (l : List Char) :
    parseElemsWith pv (f + 1) l =
      (match pv l with
      | none => none
      | some (j, r) =>
        if r.head? = some ',' then
          (parseElemsWith pv f r.tail).map (fun p => (j :: p.1, p.2))
        else if r.head? = some ']' then some ([j], r.tail)
        else none) := rfl

theorem parseFieldsWith_succ (pv : List Char → Option (Json × List Char))
    (f : Nat) (l : List Char) :
    parseFieldsWith pv (f + 1) l =
      (if l.head? = some '"' then
        match parseStringRest l.tail with
        | none => none
        | some (k, r1) =>
          if r1.head? = some ':' then
            match pv r1.tail with
            | none => none
            | some (v, r3) =>
              if r3.head? = some ',' then
                (parseFieldsWith pv f r3.tail).map
                  (fun p => ((String.mk k, v) :: p.1, p.2))
              else if r3.head? = some '}' then
                some ([(String.mk k, v)], r3.tail)
              else none
          else none
      else none) := rfl

/-! ## Lemmas: separators and measures -/

theorem SepOK_not_digit (rest : List Char) (h : SepOK rest = true) :
    ∀ c r2, rest = c :: r2 → c.isDigit = false := by
  intro c r2 he
  subst he
  rw [SepOK] at h
  simp only [Bool.or_eq_true, beq_iff_eq] at h
  rcases h with (h | h) | h <;> subst h <;> decide

theorem muJson_elem_le (xs : List Json) (x : Json) (hx : x ∈ xs) :
    muJson x ≤ (xs.map muJson).sum :=
  List.single_le_sum (fun a _ => Nat.zero_le a) _
    (List.mem_map_of_mem muJson hx)

theorem muJson_field_le (fs : List (String × Json)) (f : String × Json)
    (hf : f ∈ fs) :
    muJson f.2 ≤ (fs.map (fun g => muJson g.2)).sum :=
  List.single_le_sum (fun a _ => Nat.zero_le a) _
    (List.mem_map_of_mem (fun g => muJson g.2) hf)

theorem joinComma_length_ge (ls : List (List Char))
    (h : ∀ l ∈ ls, 1 ≤ l.length) :
    ls.length ≤ (joinComma ls).length := by
  induction ls with
  | nil => simp [joinComma]
  | cons x ls ih =>
    cases ls with
    | nil =>
      rw [joinComma]
      simpa using h x (List.mem_cons_self x [])
    | cons y ys =>
      rw [joinComma]
      have h1 : 1 ≤ x.length := h x (List.mem_cons_self x (y :: ys))
      have h2 : (y :: ys).length ≤ (joinComma (y :: ys)).length :=
        ih (fun l hl => h l (List.mem_cons_of_mem x hl))
      simp only [List.length_append, List.length_cons] at h2 ⊢
      omega

/-! ## Lemmas: element and field list round trips -/

theorem parseElemsWith_step_comma (pv : List Char → Option (Json × List Char))
    (f : Nat) (l Z : List Char) (j : Json) (h : pv l = some (j, ',' :: Z)) :
    parseElemsWith pv (f + 1) l =
      (parseElemsWith pv f Z).map (fun p => (j :: p.1, p.2)) := by
  rw [parseElemsWith_succ, h]
  rfl

theorem parseElemsWith_step_last (pv : List Char → Option (Json × List Char))
    (f : Nat) (l Z : List Char) (j : Json) (h : pv l = some (j, ']' :: Z)) :
    parseElemsWith pv (f + 1) l = some ([j], Z) := by
  rw [parseElemsWith_succ, h]
  rfl

theorem parseElemsWith_enc (pv : List Char → Option (Json × List Char))
    (xs : List Json)
    (hpv : ∀ x ∈ xs, ∀ r2 : List Char, SepOK r2 = true →
      pv (encJson x ++ r2) = some (x, r2)) :
    xs ≠ [] → ∀ fuel : Nat, xs.length ≤ fuel → ∀ rest : List Char,
      parseElemsWith pv fuel (joinComma (xs.map encJson) ++ ']' :: rest)
        = some (xs, rest) := by
  induction xs with
  | nil => intro hne; exact absurd rfl hne
  | cons x xs ih =>
    intro _ fuel hf rest
    cases fuel with
    | zero => simp at hf
    | succ f =>
      cases xs with
      | nil =>
        rw [show joinComma ([x].map encJson) = encJson x from rfl]
        exact parseElemsWith_step_last pv f _ rest x
          (hpv x (List.mem_cons_self x []) (']' :: rest) rfl)
      | cons y ys =>
        rw [show joinComma ((x :: y :: ys).map encJson)
              = encJson x ++ ',' :: joinComma ((y :: ys).map encJson)
            from rfl]
        rw [List.append_assoc, List.cons_append]
        rw [parseElemsWith_step_comma pv f _ _ x
          (hpv x (List.mem_cons_self x (y :: ys)) _ rfl)]
        rw [ih (fun z hz => hpv z (List.mem_cons_of_mem x hz))
          (by simp) f (by simp at hf ⊢; omega) rest]
        rfl

theorem parseFieldsWith_step_last
    (pv : List Char → Option (Json × List Char)) (f : Nat)
    (lt m Z : List Char) (k : List Char) (v : Json)
    (h1 : parseStringRest lt = some (k, ':' :: m))
    (h2 : pv m = some (v, '}' :: Z)) :
    parseFieldsWith pv (f + 1) ('"' :: lt) =
      some ([(String.mk k, v)], Z) := by
  rw [parseFieldsWith_succ]
  simp only [List.head?_cons, List.tail_cons]
  rw [if_pos trivial, h1]
  simp only [List.head?_cons, List.tail_cons]
  rw [if_pos trivial, h2]
  rfl

theorem parseFieldsWith_step_comma
    (pv : List Char → Option (Json × List Char)) (f : Nat)
    (lt m Z : List Char) (k : List Char) (v : Json)
    (h1 : parseStringRest lt = some (k, ':' :: m))
    (h2 : pv m = some (v, ',' :: Z)) :
    parseFieldsWith pv (f + 1) ('"' :: lt) =
      (parseFieldsWith pv f Z).map
        (fun p => ((String.mk k, v) :: p.1, p.2)) := by
  rw [parseFieldsWith_succ]
  simp only [List.head?_cons, List.tail_cons]
  rw [if_pos trivial, h1]
  simp only [List.head?_cons, List.tail_cons]
  rw [if_pos trivial, h2]
  rfl

theorem parseFieldsWith_enc (pv : List Char → Option (Json × List Char))
    (fs : List (String × Json))
    (hpv : ∀ g ∈ fs, ∀ r2 : List Char, SepOK r2 = true →
      pv (encJson g.2 ++ r2) = some (g.2, r2)) :
    fs ≠ [] → ∀ fuel : Nat, fs.length ≤ fuel → ∀ rest : List Char,
      parseFieldsWith pv fuel
          (joinComma (fs.map (fun g => encString g.1 ++ ':' :: encJson g.2))
            ++ '}' :: rest)
        = some (fs, rest) := by
  induction fs with
  | nil => intro hne; exact absurd rfl hne
  | cons g fs ih =>
    intro _ fuel hf rest
    cases fuel with
    | zero => simp at hf
    | succ f =>
      cases fs with
      | nil =>
        have hin : joinComma ((g :: []).map
              (fun g => encString g.1 ++ ':' :: encJson g.2)) ++ '}' :: rest
            = '"' :: (escList g.1.data ++
                '"' :: (':' :: (encJson g.2 ++ '}' :: rest))) := by
          simp [joinComma, encString]
        rw [hin]
        rw [parseFieldsWith_step_last pv f _ _ rest g.1.data g.2
          (parseStringRest_esc _ _)
          (hpv g (List.mem_cons_self g []) ('}' :: rest) rfl)]
      | cons g2 fs2 =>
        have hin : joinComma ((g :: g2 :: fs2).map
              (fun g => encString g.1 ++ ':' :: encJson g.2)) ++ '}' :: rest
            = '"' :: (escList g.1.data ++
                '"' :: (':' :: (encJson g.2 ++ ',' ::
                  (joinComma ((g2 :: fs2).map
                    (fun g => encString g.1 ++ ':' :: encJson g.2))
                    ++ '}' :: rest)))) := by
          simp [joinComma, encString]
        rw [hin]
        rw [parseFieldsWith_step_comma pv f _ _ _ g.1.data g.2
          (parseStringRest_esc _ _)
          (hpv g (List.mem_cons_self g (g2 :: fs2)) _ rfl)]
        rw [ih (fun z hz => hpv z (List.mem_cons_of_mem g hz))
          (by simp) f (by simp at hf ⊢; omega) rest]
        rfl

/-! ## Lemmas: the main encode/parse round trip -/

theorem parseVal_lbracket (f : Nat) (c : Char) (Z : List Char)
    (h : c ≠ ']') :
    parseVal (f + 1) ('[' :: c :: Z) =
      (parseElemsWith (parseVal f) ((c :: Z).length + 1) (c :: Z)).map
        (fun p => (Json.arr p.1, p.2)) := by
  rw [parseVal_succ]
  rw [if_neg (by decide : ¬ ('[' : Char) = '"')]
  rw [if_pos rfl]
  rw [if_neg (by simp only [List.head?_cons, Option.some.injEq]; exact h)]

theorem parseVal_lbrace (f : Nat) (c : Char) (Z : List Char)
    (h : c ≠ '}') :
    parseVal (f + 1) ('{' :: c :: Z) =
      (parseFieldsWith (parseVal f) ((c :: Z).length + 1) (c :: Z)).map
        (fun p => (Json.obj p.1, p.2)) := by
  rw [parseVal_succ]
  rw [if_neg (by decide : ¬ ('{' : Char) = '"')]
  rw [if_neg (by decide : ¬ ('{' : Char) = '[')]
  rw [if_pos rfl]
  rw [if_neg (by simp only [List.head?_cons, Option.some.injEq]; exact h)]

theorem parseVal_digit (f : Nat) (c : Char) (r : List Char)
    (h : c.isDigit = true) :
    parseVal (f + 1) (c :: r) =
      some (Json.num (digitsToNat (splitDigits (c :: r)).1),
        (splitDigits (c :: r)).2) := by
  rw [parseVal_succ]
  rw [if_neg (fun he => by subst he; simp at h)]
  rw [if_neg (fun he => by subst he; simp at h)]
  rw [if_neg (fun he => by subst he; simp at h)]
  rw [if_neg (fun he => by subst he; simp at h)]
  rw [if_neg (fun he => by subst he; simp at h)]
  rw [if_neg (fun he => by subst he; simp at h)]
  rw [if_pos h]

theorem parseVal_enc (fuel : Nat) :
    ∀ (j : Json) (rest : List Char), muJson j ≤ fuel →
      SepOK rest = true →
      parseVal fuel (encJson j ++ rest) = some (j, rest) := by
  induction fuel with
  | zero =>
    intro j rest hmu _
    have := muJson_pos j
    omega
  | succ f ih =>
    intro j rest hmu hsep
    cases j with
    | null => rw [encJson_null]; rfl
    | bool b =>
      cases b with
      | false => rw [encJson_false]; rfl
      | true => rw [encJson_true]; rfl
    | num n =>
      rw [encJson_num]
      cases h : natToChars n with
      | nil => exact absurd h (natToChars_ne_nil n)
      | cons c cs =>
        have hall : ∀ d ∈ c :: cs, Char.isDigit d = true := by
          rw [← h]; exact natToChars_all_digits n
        have hcd : c.isDigit = true := hall c (List.mem_cons_self c cs)
        rw [List.cons_append, parseVal_digit f c (cs ++ rest) hcd]
        have hsplit : splitDigits (c :: (cs ++ rest)) = (c :: cs, rest) := by
          rw [show c :: (cs ++ rest) = (c :: cs) ++ rest from rfl]
          exact splitDigits_append (c :: cs) hall rest
            (SepOK_not_digit rest hsep)
        rw [hsplit, ← h, digitsToNat_natToChars]
    | str s =>
      rw [encJson_str, encString]
      simp only [List.cons_append, List.append_assoc, List.singleton_append,
        List.nil_append]
      rw [show parseVal (f + 1) ('"' :: (escList s.data ++ '"' :: rest))
            = (parseStringRest (escList s.data ++ '"' :: rest)).map
                (fun p => (Json.str (String.mk p.1), p.2)) from rfl]
      rw [parseStringRest_esc]
      rfl
    | arr xs =>
      cases xs with
      | nil =>
        rw [encJson_arr]
        rw [show joinComma (([] : List Json).map encJson) = [] from rfl]
        rfl
      | cons x xs2 =>
        rw [encJson_arr]
        obtain ⟨c, cs, hx, hc⟩ := encHead x
        have hbody : ∃ B, joinComma ((x :: xs2).map encJson) = c :: B := by
          cases xs2 with
          | nil =>
            exact ⟨cs, by rw [show joinComma ([x].map encJson) = encJson x
              from rfl, hx]⟩
          | cons y ys =>
            refine ⟨cs ++ ',' :: joinComma ((y :: ys).map encJson), ?_⟩
            rw [show joinComma ((x :: y :: ys).map encJson)
                  = encJson x ++ ',' :: joinComma ((y :: ys).map encJson)
                from rfl, hx]
            rfl
        obtain ⟨B, hB⟩ := hbody
        have hne : c ≠ ']' := (encHead_ne_sep c hc).2.1
        simp only [List.cons_append, List.append_assoc,
          List.singleton_append, List.nil_append]
        rw [hB, List.cons_append]
        rw [parseVal_lbracket f c (B ++ ']' :: rest) hne]
        rw [← List.cons_append, ← hB]
        have hmu2 : (List.map muJson (x :: xs2)).sum ≤ f := by
          rw [muJson_arr] at hmu
          omega
        rw [parseElemsWith_enc (parseVal f) (x :: xs2)
          (fun z hz r2 hr2 => ih z r2
            (le_trans (muJson_elem_le (x :: xs2) z hz) hmu2) hr2)
          (by simp)
          ((joinComma ((x :: xs2).map encJson) ++ ']' :: rest).length + 1)
          ?_ rest]
        · rfl
        · have hlen : (x :: xs2).length
              ≤ (joinComma ((x :: xs2).map encJson)).length := by
            have := joinComma_length_ge ((x :: xs2).map encJson) ?_
            · simpa using this
            · intro l hl
              obtain ⟨z, _, hz⟩ := List.mem_map.mp hl
              rw [← hz]
              exact encLen_pos z
          simp only [List.length_cons] at hlen
          simp only [List.length_append, List.length_cons]
          omega
    | obj fs =>
      cases fs with
      | nil =>
        rw [encJson_obj]
        rw [show joinComma (([] : List (String × Json)).map
              (fun g => encString g.1 ++ ':' :: encJson g.2)) = []
            from rfl]
        rfl
      | cons g fs2 =>
        rw [encJson_obj]
        have hbody : ∃ B, joinComma ((g :: fs2).map
              (fun g => encString g.1 ++ ':' :: encJson g.2)) = '"' :: B := by
          cases fs2 with
          | nil =>
            refine ⟨escList g.1.data ++ ['"'] ++ ':' :: encJson g.2, ?_⟩
            rw [show joinComma ([g].map
                  (fun g => encString g.1 ++ ':' :: encJson g.2))
                = encString g.1 ++ ':' :: encJson g.2 from rfl, encString]
            simp
          | cons g2 gs =>
            refine ⟨escList g.1.data ++ ['"'] ++ ':' :: encJson g.2 ++ ',' ::
              joinComma ((g2 :: gs).map
                (fun g => encString g.1 ++ ':' :: encJson g.2)), ?_⟩
            rw [show joinComma ((g :: g2 :: gs).map
                  (fun g => encString g.1 ++ ':' :: encJson g.2))
                = (encString g.1 ++ ':' :: encJson g.2) ++ ',' ::
                    joinComma ((g2 :: gs).map
                      (fun g => encString g.1 ++ ':' :: encJson g.2))
                from rfl, encString]
            simp
        obtain ⟨B, hB⟩ := hbody
        simp only [List.cons_append, List.append_assoc,
          List.singleton_append, List.nil_append]
        rw [hB, List.cons_append]
        rw [parseVal_lbrace f '"' (B ++ '}' :: rest) (by decide)]
        rw [← List.cons_append, ← hB]
        have hmu2 : (List.map (fun g => muJson g.2) (g :: fs2)).sum ≤ f := by
          rw [muJson_obj] at hmu
          omega
        rw [parseFieldsWith_enc (parseVal f) (g :: fs2)
          (fun z hz r2 hr2 => ih z.2 r2
            (le_trans (muJson_field_le (g :: fs2) z hz) hmu2) hr2)
          (by simp)
          ((joinComma ((g :: fs2).map
              (fun g => encString g.1 ++ ':' :: encJson g.2))
            ++ '}' :: rest).length + 1)
          ?_ rest]
        · rfl
        · have hlen : (g :: fs2).length
              ≤ (joinComma ((g :: fs2).map
                  (fun g => encString g.1 ++ ':' :: encJson g.2))).length := by
            have := joinComma_length_ge ((g :: fs2).map
              (fun g => encString g.1 ++ ':' :: encJson g.2)) ?_
            · simpa using this
            · intro l hl
              obtain ⟨z, _, hz⟩ := List.mem_map.mp hl
              rw [← hz, encString]
              simp
          simp only [List.length_cons] at hlen
          simp only [List.length_append, List.length_cons]
          omega

/-! ## Lemmas: the measure is bounded by the encoding length -/

theorem jc_sum_le (xs : List Json)
    (h : ∀ x ∈ xs, muJson x ≤ (encJson x).length) :
    (xs.map muJson).sum ≤ (joinComma (xs.map encJson)).length + 1 := by
  induction xs with
  | nil => simp [joinComma]
  | cons x xs ih =>
    have h1 := h x (List.mem_cons_self x xs)
    cases xs with
    | nil =>
      rw [show joinComma ([x].map encJson) = encJson x from rfl]
      simp only [List.map_cons, List.map_nil, List.sum_cons, List.sum_nil]
      omega
    | cons y ys =>
      have h2 := ih (fun z hz => h z (List.mem_cons_of_mem x hz))
      rw [show joinComma ((x :: y :: ys).map encJson)
            = encJson x ++ ',' :: joinComma ((y :: ys).map encJson)
          from rfl]
      simp only [List.map_cons, List.sum_cons, List.length_append,
        List.length_cons] at h2 ⊢
      omega

theorem jc_sum_le_fields (fs : List (String × Json))
    (h : ∀ g ∈ fs, muJson g.2 ≤ (encJson g.2).length) :
    (fs.map (fun g => muJson g.2)).sum ≤
      (joinComma (fs.map
        (fun g => encString g.1 ++ ':' :: encJson g.2))).length + 1 := by
  induction fs with
  | nil => simp [joinComma]
  | cons x fs ih =>
    have h1 := h x (List.mem_cons_self x fs)
    cases fs with
    | nil =>
      rw [show joinComma ([x].map
            (fun g => encString g.1 ++ ':' :: encJson g.2))
          = encString x.1 ++ ':' :: encJson x.2 from rfl]
      simp only [List.map_cons, List.map_nil, List.sum_cons, List.sum_nil,
        List.length_append, List.length_cons]
      omega
    | cons y ys =>
      have h2 := ih (fun z hz => h z (List.mem_cons_of_mem x hz))
      rw [show joinComma ((x :: y :: ys).map
            (fun g => encString g.1 ++ ':' :: encJson g.2))
          = (encString x.1 ++ ':' :: encJson x.2) ++ ',' ::
              joinComma ((y :: ys).map
                (fun g => encString g.1 ++ ':' :: encJson g.2))
          from rfl]
      simp only [List.map_cons, List.sum_cons, List.length_append,
        List.length_cons] at h2 ⊢
      omega

theorem muJson_le_encLen_aux :
    ∀ (n : Nat) (j : Json), muJson j ≤ n → muJson j ≤ (encJson j).length := by
  intro n
  induction n with
  | zero =>
    intro j h
    have := muJson_pos j
    omega
  | succ n ih =>
    intro j hj
    cases j with
    | null => rw [encJson_null]; simp [muJson]
    | bool b =>
      cases b with
      | false => rw [encJson_false]; simp [muJson]
      | true => rw [encJson_true]; simp [muJson]
    | num n2 =>
      rw [encJson_num, muJson]
      cases h : natToChars n2 with
      | nil => exact absurd h (natToChars_ne_nil n2)
      | cons c cs => simp
    | str s =>
      rw [encJson_str, encString, muJson]
      simp
    | arr xs =>
      rw [muJson_arr] at hj ⊢
      rw [encJson_arr]
      have hsum : (xs.map muJson).sum ≤ n := by omega
      have hpt : ∀ x ∈ xs, muJson x ≤ (encJson x).length := by
        intro x hx
        exact ih x (le_trans (muJson_elem_le xs x hx) hsum)
      have := jc_sum_le xs hpt
      simp only [List.length_append, List.length_cons]
      omega
    | obj fs =>
      rw [muJson_obj] at hj ⊢
      rw [encJson_obj]
      have hsum : (fs.map (fun g => muJson g.2)).sum ≤ n := by omega
      have hpt : ∀ g ∈ fs, muJson g.2 ≤ (encJson g.2).length := by
        intro g hg
        exact ih g.2 (le_trans (muJson_field_le fs g hg) hsum)
      have := jc_sum_le_fields fs hpt
      simp only [List.length_append, List.length_cons]
      omega

theorem muJson_le_encLen (j : Json) : muJson j ≤ (encJson j).length :=
  muJson_le_encLen_aux (muJson j) j (Nat.le_refl _)

/-- The round trip at the document level: parsing the encoding of any
JSON value yields that value back. -/
theorem jsonParse_enc (j : Json) : jsonParse (encJson j) = some j := by
  rw [jsonParse]
  have h := parseVal_enc ((encJson j).length + 1) j []
    (by have := muJson_le_encLen j; omega) rfl
  rw [List.append_nil] at h
  rw [h]

/-! ## Lemmas: envelope codec -/

theorem gcmTag_length (n k p : Bytes) : (gcmTag n k p).length = gcmTagSize := by
  rw [gcmTag]
  simp

theorem gcmSeal_length (n k p : Bytes) :
    (gcmSeal n k p).length = p.length + gcmTagSize := by
  rw [gcmSeal]
  simp [gcmTag_length]

theorem gcmOpen_gcmSeal (n k pt : Bytes) :
    gcmOpen n k (gcmSeal n k pt) = some pt := by
  rw [gcmOpen]
  have hlen := gcmSeal_length n k pt
  rw [if_neg (by omega)]
  have htake : (gcmSeal n k pt).take ((gcmSeal n k pt).length - gcmTagSize)
      = pt := by
    rw [hlen, Nat.add_sub_cancel, gcmSeal]
    exact List.take_left pt (gcmTag n k pt)
  rw [htake, if_pos rfl]

theorem encrypt_ok (pt k nonce : Bytes) (hk : aesKeySizeOK k = true) :
    encrypt pt k nonce = .ok (nonce ++ gcmSeal nonce k pt) := by
  rw [encrypt, if_pos hk]

theorem decrypt_encrypt (pt k nonce : Bytes) (hk : aesKeySizeOK k = true)
    (hn : nonce.length = gcmNonceSize) :
    decrypt (nonce ++ gcmSeal nonce k pt) k = .ok pt := by
  rw [decrypt]
  have hlen : (nonce ++ gcmSeal nonce k pt).length
      = gcmNonceSize + pt.length + gcmTagSize := by
    simp [gcmSeal_length, hn]
    omega
  rw [if_neg (by
    intro he
    have h5 : (nonce ++ gcmSeal nonce k pt).length = falseLit.length := by
      rw [he]
    rw [hlen] at h5
    simp [falseLit, gcmNonceSize, gcmTagSize] at h5)]
  rw [if_neg (fun hcon => hcon hk)]
  rw [if_neg (by omega)]
  have ht : (nonce ++ gcmSeal nonce k pt).take gcmNonceSize = nonce := by
    rw [← hn]
    exact List.take_left nonce (gcmSeal nonce k pt)
  have hd : (nonce ++ gcmSeal nonce k pt).drop gcmNonceSize
      = gcmSeal nonce k pt := by
    rw [← hn]
    exact List.drop_left nonce (gcmSeal nonce k pt)
  rw [ht, hd, gcmOpen_gcmSeal]

/-! ## Lemmas: unmarshal bodies -/

theorem unmarshalBody_enc_json (j : Json) (p : Option Json) :
    unmarshalBody (encJson j) (.djson p) = (none, .djson (some j)) := by
  have h1 : jsonUnmarshalInto (encJson j) (.djson p) = some (.djson (some j)) := by
    rw [jsonUnmarshalInto, jsonParse_enc]
  rw [unmarshalBody, h1]

theorem unmarshalBody_str (s : String) (prior : String)
    (hs : stringSafeB (.str s) = true) :
    unmarshalBody s.data (.dstr prior) = (none, .dstr s) := by
  have h1 : jsonUnmarshalInto s.data (.dstr prior) = none := by
    rw [jsonUnmarshalInto]
    rw [stringSafeB] at hs
    cases hp : jsonParse s.data with
    | none => rfl
    | some jj =>
      rw [hp] at hs
      cases jj with
      | null => simp at hs
      | str w => simp at hs
      | bool b => rfl
      | num n => rfl
      | arr xs => rfl
      | obj fs => rfl
  rw [unmarshalBody, h1]

/-- The core of the amended round trip: with no encryption configured,
or with a valid enabled key and a fresh correctly-sized nonce, decoding
the bytes produced by encoding reproduces the value — for every
structured value, and for every plain string whose bytes do not
themselves parse as a JSON string or null. -/
theorem unmarshal_marshal (c : DbConnection) (nonce : Bytes) (v : GoValue)
    (henc : c.getEncryptionKey = none ∨
      (∃ k, c.getEncryptionKey = some k ∧ aesKeySizeOK k = true ∧
        nonce.length = gcmNonceSize))
    (hs : stringSafeB v = true) :
    ∀ env, MarshalObject c nonce v = .ok env →
      UnmarshalObject c env (zeroDest v) = (none, destOf v) := by
  intro env henv
  have hbody : ∀ d0 : Option Json,
      unmarshalBody (marshalBuf v) (zeroDest v) = (none, destOf v) := by
    intro _
    cases v with
    | str s => exact unmarshalBody_str s "" hs
    | json j => exact unmarshalBody_enc_json j none
  rcases henc with hnone | ⟨k, hk, hksize, hnlen⟩
  · rw [MarshalObject, hnone] at henv
    have henv2 : env = marshalBuf v := by
      cases henv
      rfl
    subst henv2
    rw [UnmarshalObject, hnone]
    exact hbody none
  · rw [MarshalObject, hk] at henv
    have henv3 : encrypt (marshalBuf v) k nonce = Except.ok env := henv
    rw [encrypt_ok _ _ _ hksize] at henv3
    have henv2 : env = nonce ++ gcmSeal nonce k (marshalBuf v) := by
      cases henv3
      rfl
    subst henv2
    rw [UnmarshalObject, hk]
    show (match decrypt (nonce ++ gcmSeal nonce k (marshalBuf v)) k with
      | Except.error e => (some (UnmarshalErr.decryptFailed e), zeroDest v)
      | Except.ok data2 => unmarshalBody data2 (zeroDest v))
        = (none, destOf v)
    rw [decrypt_encrypt _ _ _ hksize hnlen]
    exact hbody none

/-! ## Lemmas: SQL LIKE matching -/

theorem likeMatchF_succ (f : Nat) (pat txt : List Char) :
    likeMatchF (f + 1) pat txt =
      (match pat with
      | [] => txt.isEmpty
      | c :: ps =>
        if c = '%' then
          likeMatchF f ps txt ||
            (match txt with
             | [] => false
             | _ :: ts => likeMatchF f pat ts)
        else if c = '\\' then
          match ps, txt with
          | pc :: ps2, tc :: ts => pc == tc && likeMatchF f ps2 ts
          | _, _ => false
        else if c = '_' then
          match txt with
          | [] => false
          | _ :: ts => likeMatchF f ps ts
        else
          match txt with
          | [] => false
          | tc :: ts => c == tc && likeMatchF f ps ts) := rfl

theorem likeMatchF_nil (f : Nat) (txt : List Char) :
    likeMatchF (f + 1) [] txt = txt.isEmpty := rfl

theorem likeMatchF_percent :
    ∀ (f : Nat), ∀ (txt : List Char), txt.length + 1 < f →
      likeMatchF f ['%'] txt = true := by
  intro f
  induction f with
  | zero => intro txt h; omega
  | succ f ih =>
    intro txt h
    rw [likeMatchF_succ]
    cases txt with
    | nil =>
      cases f with
      | zero => omega
      | succ f2 =>
        show (likeMatchF (f2 + 1) [] [] || false) = true
        rw [likeMatchF_nil]
        rfl
    | cons t ts =>
      have h2 : likeMatchF f ['%'] ts = true := by
        apply ih
        simp only [List.length_cons] at h
        omega
      show (likeMatchF f [] (t :: ts) || likeMatchF f ['%'] ts) = true
      rw [h2]
      simp

theorem likeMatchF_noMeta :
    ∀ (p : List Char), ∀ (txt : List Char) (f : Nat),
      noLikeMeta p = true → p.length + txt.length + 1 < f →
      likeMatchF f (p ++ ['%']) txt = List.isPrefixOf p txt := by
  intro p
  induction p with
  | nil =>
    intro txt f _ hf
    rw [List.nil_append]
    rw [likeMatchF_percent f txt (by simpa using hf)]
    simp [List.isPrefixOf]
  | cons c ps ih =>
    intro txt f hmeta hf
    have hc : ¬ (c == '%' || c == '_' || c == '\\') = true := by
      rw [noLikeMeta, List.all_cons] at hmeta
      simp only [Bool.and_eq_true, Bool.not_eq_eq_eq_not, Bool.not_true] at hmeta
      rw [hmeta.1]
      simp
    simp only [Bool.or_eq_true, beq_iff_eq, not_or] at hc
    obtain ⟨⟨hc1, hc2⟩, hc3⟩ := hc
    cases f with
    | zero => omega
    | succ f2 =>
      rw [List.cons_append, likeMatchF_succ]
      simp only [if_neg hc1, if_neg hc3, if_neg hc2]
      cases txt with
      | nil => rfl
      | cons t ts =>
        have hih : likeMatchF f2 (ps ++ ['%']) ts = List.isPrefixOf ps ts := by
          apply ih ts f2
          · rw [noLikeMeta, List.all_cons, Bool.and_eq_true] at hmeta
            exact hmeta.2
          · simp only [List.length_cons] at hf
            omega
        show (c == t && likeMatchF f2 (ps ++ ['%']) ts)
          = List.isPrefixOf (c :: ps) (t :: ts)
        rw [hih]
        rfl

theorem likeMatch_noMeta (p txt : List Char) (h : noLikeMeta p = true) :
    likeMatch (p ++ ['%']) txt = List.isPrefixOf p txt := by
  rw [likeMatch]
  apply likeMatchF_noMeta p txt _ h
  simp

/-! ## Lemmas: bucket scans -/

theorem GetAll_nil (visit : Json → Option String) :
    DbTransaction.GetAll [] visit = ([], none) := rfl

theorem GetAll_cons (r : Bytes) (rs : List Bytes)
    (visit : Json → Option String) :
    DbTransaction.GetAll (r :: rs) visit =
      (match jsonParse r with
      | none => ([], some ScanErr.decodeFailed)
      | some j =>
        match visit j with
        | some e => ([j], some (ScanErr.visitFailed e))
        | none => (j :: (DbTransaction.GetAll rs visit).1,
            (DbTransaction.GetAll rs visit).2)) := rfl

theorem GetAll_visits_each_once (rows : List Bytes)
    (visit : Json → Option String)
    (hdec : ∀ r ∈ rows, (jsonParse r).isSome = true)
    (hv : ∀ j, visit j = none) :
    DbTransaction.GetAll rows visit = (rows.filterMap jsonParse, none) := by
  induction rows with
  | nil => rfl
  | cons r rs ih =>
    obtain ⟨j, hj⟩ := Option.isSome_iff_exists.mp
      (hdec r (List.mem_cons_self r rs))
    rw [GetAll_cons]
    simp only [hj, hv]
    rw [ih (fun x hx => hdec x (List.mem_cons_of_mem r hx))]
    rw [List.filterMap_cons_some hj]

theorem GetAll_abort (pre : List Bytes) (r : Bytes) (post : List Bytes)
    (visit : Json → Option String) (jv : Json) (e : String)
    (hpre : ∀ x ∈ pre, ∃ jx, jsonParse x = some jx ∧ visit jx = none)
    (hr : jsonParse r = some jv) (hv : visit jv = some e) :
    DbTransaction.GetAll (pre ++ r :: post) visit =
      (pre.filterMap jsonParse ++ [jv], some (ScanErr.visitFailed e)) := by
  induction pre with
  | nil =>
    rw [List.nil_append, GetAll_cons]
    simp only [hr, hv]
    rfl
  | cons x pre2 ih =>
    obtain ⟨jx, hjx, hvx⟩ := hpre x (List.mem_cons_self x pre2)
    rw [List.cons_append, GetAll_cons]
    simp only [hjx, hvx]
    rw [ih (fun z hz => hpre z (List.mem_cons_of_mem x hz))]
    rw [List.filterMap_cons_some hjx]
    rfl

theorem GetAllWithKeyPrefix_noMeta (rows : List (List Char × Bytes))
    (p : List Char) (visit : Json → Option String)
    (h : noLikeMeta p = true) :
    DbTransaction.GetAllWithKeyPrefix rows p visit =
      DbTransaction.GetAll
        ((rows.filter (fun row => List.isPrefixOf p row.1)).map Prod.snd)
        visit := by
  rw [DbTransaction.GetAllWithKeyPrefix]
  congr 2
  apply List.filter_congr
  intro row _
  exact likeMatch_noMeta p row.1 h

/-! ## Lemmas: transaction entry points -/

theorem UpdateTx_run {σ : Type} (db : σ) (fn : σ → FnResult σ) :
    UpdateTx true true db fn =
      (match fn db with
      | .ok s2 => (.committed, s2)
      | .err e _ => (.errored e, db)
      | .panicked p _ => (.panicked p, db)) := rfl

/-! ## Claim theorems -/

/-- C1: for every combination of (unencrypted marker table exists,
encrypted marker table exists, encryption key present),
`NeedsEncryptionMigration` — in both source variants — returns exactly
the pair of the spec's decision table: both-present is the fatal
both-states error for either key state; unencrypted-only with a key
requires migration; unencrypted-only without a key does not; encrypted-
only without a key is the fatal no-key error; encrypted-only with a key
and the neither-table states need no migration and no error. -/
theorem C1_needs_migration_decision_table :
    NeedsEncryptionMigrationV1 true (.ok true) (.ok true) true
        = (false, some .haveEncryptedAndUnencrypted)
    ∧ NeedsEncryptionMigrationV1 true (.ok true) (.ok true) false
        = (false, some .haveEncryptedAndUnencrypted)
    ∧ NeedsEncryptionMigrationV1 true (.ok true) (.ok false) true
        = (true, none)
    ∧ NeedsEncryptionMigrationV1 true (.ok true) (.ok false) false
        = (false, none)
    ∧ NeedsEncryptionMigrationV1 true (.ok false) (.ok true) false
        = (false, some .haveEncryptedWithNoKey)
    ∧ NeedsEncryptionMigrationV1 true (.ok false) (.ok true) true
        = (false, none)
    ∧ NeedsEncryptionMigrationV1 true (.ok false) (.ok false) true
        = (false, none)
    ∧ NeedsEncryptionMigrationV1 true (.ok false) (.ok false) false
        = (false, none)
    ∧ NeedsEncryptionMigrationV2 (.ok true) (.ok true) true
        = (false, some .haveEncryptedAndUnencrypted)
    ∧ NeedsEncryptionMigrationV2 (.ok true) (.ok true) false
        = (false, some .haveEncryptedAndUnencrypted)
    ∧ NeedsEncryptionMigrationV2 (.ok true) (.ok false) true
        = (true, none)
    ∧ NeedsEncryptionMigrationV2 (.ok true) (.ok false) false
        = (false, none)
    ∧ NeedsEncryptionMigrationV2 (.ok false) (.ok true) false
        = (false, some .haveEncryptedWithNoKey)
    ∧ NeedsEncryptionMigrationV2 (.ok false) (.ok true) true
        = (false, none)
    ∧ NeedsEncryptionMigrationV2 (.ok false) (.ok false) true
        = (false, none)
    ∧ NeedsEncryptionMigrationV2 (.ok false) (.ok false) false
        = (false, none) := by
  decide

/-- C2: with a live connection and a successful begin, `UpdateTx`
commits exactly when the supplied function returns nil (publishing the
function's final state); when the function returns an error, the
transaction is rolled back — a fresh `ViewTx` observes the original
state — and the original error is returned; when the function panics,
the state is rolled back and the panic propagates, never swallowed. -/
theorem C2_updateTx_atomicity {σ : Type} (db : σ) (fn : σ → FnResult σ) :
    ((UpdateTx true true db fn).1 = .committed ↔ ∃ s2, fn db = .ok s2)
    ∧ (∀ s2, fn db = .ok s2 → UpdateTx true true db fn = (.committed, s2))
    ∧ (∀ e s2, fn db = .err e s2 →
        UpdateTx true true db fn = (.errored e, db)
        ∧ ∀ g : σ → FnResult σ,
            ViewTx true true (UpdateTx true true db fn).2 g
              = ViewTx true true db g)
    ∧ (∀ p s2, fn db = .panicked p s2 →
        UpdateTx true true db fn = (.panicked p, db)) := by
  refine ⟨⟨?_, ?_⟩, ?_, ?_, ?_⟩
  · intro h
    cases hfn : fn db with
    | ok s2 => exact ⟨s2, rfl⟩
    | err e s2 =>
      rw [UpdateTx_run, hfn] at h
      simp at h
    | panicked p s2 =>
      rw [UpdateTx_run, hfn] at h
      simp at h
  · rintro ⟨s2, hs⟩
    rw [UpdateTx_run, hs]
  · intro s2 hs
    rw [UpdateTx_run, hs]
  · intro e s2 hs
    refine ⟨by rw [UpdateTx_run, hs], ?_⟩
    intro g
    rw [UpdateTx_run, hs]
  · intro p s2 hs
    rw [UpdateTx_run, hs]

theorem C2_updateTx_atomicity_witness :
    UpdateTx true true (0 : Nat) (fun s => .ok (s + 1)) = (.committed, 1)
    ∧ UpdateTx true true (0 : Nat) (fun s => .err "boom" (s + 1))
        = (.errored "boom", 0)
    ∧ ViewTx true true
        (UpdateTx true true (0 : Nat) (fun s => .err "boom" (s + 1))).2
        (fun s => FnResult.ok s)
        = ViewTx true true (0 : Nat) (fun s => FnResult.ok s)
    ∧ UpdateTx true true (0 : Nat) (fun s => .panicked "oops" (s + 1))
        = (.panicked "oops", 0) := by
  refine ⟨?_, ?_, ?_, ?_⟩
  · exact (C2_updateTx_atomicity 0 _).2.1 1 rfl
  · exact ((C2_updateTx_atomicity 0 _).2.2.1 "boom" 1 rfl).1
  · exact ((C2_updateTx_atomicity 0 _).2.2.1 "boom" 1 rfl).2 _
  · exact (C2_updateTx_atomicity 0 _).2.2.2 "oops" 1 rfl

/-- C3 counterexample: the round trip fails as universally stated. The
plain string made of the four characters quote-h-i-quote is marshalled
to its raw bytes, which `json.Unmarshal` happily decodes as the JSON
string literal for `hi`, so decoding the encoding of that value yields
the different string `hi`. -/
theorem C3_roundtrip_counterexample :
    MarshalObject { EncryptionKey := none, isEncrypted := false } []
        (.str "\"hi\"") = .ok ['"', 'h', 'i', '"']
    ∧ UnmarshalObject { EncryptionKey := none, isEncrypted := false }
        ['"', 'h', 'i', '"'] (.dstr "") = (none, .dstr "hi")
    ∧ ("hi" : String) ≠ "\"hi\"" := by
  refine ⟨rfl, rfl, by decide⟩

/-- C3 amended: decoding the bytes produced by encoding reproduces the
value — for every structured value, and for every plain string whose
raw bytes do not themselves parse as a JSON string literal or JSON
null — both with no encryption key configured and with a configured and
enabled valid-size key and fresh nonce. -/
theorem C3_roundtrip_amended (v : GoValue) (hs : stringSafeB v = true) :
    (∀ c : DbConnection, c.getEncryptionKey = none →
      ∀ env, MarshalObject c [] v = .ok env →
        UnmarshalObject c env (zeroDest v) = (none, destOf v))
    ∧ (∀ (c : DbConnection) (k nonce : Bytes), c.getEncryptionKey = some k →
        aesKeySizeOK k = true → nonce.length = gcmNonceSize →
        ∀ env, MarshalObject c nonce v = .ok env →
          UnmarshalObject c env (zeroDest v) = (none, destOf v)) := by
  constructor
  · intro c hc env henv
    exact unmarshal_marshal c [] v (Or.inl hc) hs env henv
  · intro c k nonce hc hk hn env henv
    exact unmarshal_marshal c nonce v (Or.inr ⟨k, hc, hk, hn⟩) hs env henv

theorem C3_roundtrip_amended_witness :
    stringSafeB (.str "a") = true
    ∧ UnmarshalObject { EncryptionKey := none, isEncrypted := false }
        ['a'] (.dstr "") = (none, .dstr "a")
    ∧ UnmarshalObject
        { EncryptionKey := some (List.replicate 16 'k'), isEncrypted := true }
        (List.replicate 12 'n' ++
          gcmSeal (List.replicate 12 'n') (List.replicate 16 'k') ['a'])
        (.dstr "") = (none, .dstr "a") := by
  refine ⟨by decide, ?_, ?_⟩
  · exact (C3_roundtrip_amended (.str "a") (by decide)).1
      { EncryptionKey := none, isEncrypted := false } rfl ['a'] rfl
  · exact (C3_roundtrip_amended (.str "a") (by decide)).2
      { EncryptionKey := some (List.replicate 16 'k'), isEncrypted := true }
      (List.replicate 16 'k') (List.replicate 12 'n') rfl (by decide)
      (by decide) _ rfl

/-- C4 counterexample: the literal bytes of the string `false` are five
bytes — shorter than the 12-byte nonce — yet `decrypt` returns them
successfully (the false-sentinel special case runs before the length
check), not the dedicated too-short error, even under a valid key. -/
theorem C4_too_short_counterexample :
    falseLit.length < gcmNonceSize
    ∧ aesKeySizeOK (List.replicate 16 'k') = true
    ∧ decrypt falseLit (List.replicate 16 'k') = .ok falseLit
    ∧ decrypt falseLit (List.replicate 16 'k') ≠ .error .tooShort := by
  refine ⟨by decide, by decide, rfl, ?_⟩
  intro h
  exact Except.noConfusion h

/-- C4 amended: every input shorter than the cipher's nonce length
other than the literal `false` sentinel fails with the dedicated
too-short error for every valid key, without attempting decryption; and
`UnmarshalObject` with such a key configured and enabled surfaces that
failure wrapped as its decryption error. -/
theorem C4_too_short_amended (data k : Bytes) (d : Dest)
    (hne : data ≠ falseLit) (hk : aesKeySizeOK k = true)
    (hlen : data.length < gcmNonceSize) :
    decrypt data k = .error .tooShort
    ∧ UnmarshalObject { EncryptionKey := some k, isEncrypted := true } data d
        = (some (.decryptFailed .tooShort), d) := by
  have h1 : decrypt data k = .error .tooShort := by
    rw [decrypt, if_neg hne, if_neg (fun hcon => hcon hk), if_pos hlen]
  refine ⟨h1, ?_⟩
  rw [UnmarshalObject]
  show (match decrypt data k with
    | Except.error e => (some (UnmarshalErr.decryptFailed e), d)
    | Except.ok data2 => unmarshalBody data2 d)
      = (some (.decryptFailed .tooShort), d)
  rw [h1]

theorem C4_too_short_amended_witness :
    (['x'] : Bytes) ≠ falseLit
    ∧ aesKeySizeOK (List.replicate 16 'k') = true
    ∧ (['x'] : Bytes).length < gcmNonceSize
    ∧ decrypt ['x'] (List.replicate 16 'k') = .error .tooShort
    ∧ UnmarshalObject
        { EncryptionKey := some (List.replicate 16 'k'), isEncrypted := true }
        ['x'] (.dstr "") = (some (.decryptFailed .tooShort), .dstr "") := by
  refine ⟨by decide, by decide, by decide, ?_, ?_⟩
  · exact (C4_too_short_amended ['x'] (List.replicate 16 'k') (.dstr "")
      (by decide) (by decide) (by decide)).1
  · exact (C4_too_short_amended ['x'] (List.replicate 16 'k') (.dstr "")
      (by decide) (by decide) (by decide)).2

/-- C5: the claim is right and the code is wrong. With no encryption
configured and an unparseable payload, `UnmarshalObject` into a
non-string destination returns `errors.Wrap(err, e.Error())` where
`err` is provably nil at that point, and `pkg/errors.Wrap` of nil is
nil — the decode failure is silently swallowed and the destination left
unchanged, while a string destination takes the raw bytes. This theorem
evaluates the model at the failing input: a lone open-brace payload. -/
theorem C5_decode_error_swallowed :
    jsonParse ['{'] = none
    ∧ UnmarshalObject { EncryptionKey := none, isEncrypted := false }
        ['{'] (.djson none) = (none, .djson none)
    ∧ UnmarshalObject { EncryptionKey := none, isEncrypted := false }
        ['{'] (.djson (some (Json.num 7)))
        = (none, .djson (some (Json.num 7)))
    ∧ UnmarshalObject { EncryptionKey := none, isEncrypted := false }
        ['{'] (.dstr "") = (none, .dstr "\x7b") := by
  refine ⟨rfl, rfl, rfl, rfl⟩

/-- C6 counterexample: two sequential `GetNextIdentifier` calls in one
transaction with no intervening operations both compute `max(id)+1`
over the same rows — on a bucket holding ids 1 and 2 they both return
3, so the second is not strictly greater than the first. -/
theorem C6_monotonicity_counterexample :
    DbTransaction.twoSequentialNextIdentifiers
        (some [((1 : Int), ['a']), ((2 : Int), ['b'])]) = (3, 3)
    ∧ ¬ ((DbTransaction.twoSequentialNextIdentifiers
          (some [((1 : Int), ['a']), ((2 : Int), ['b'])])).1
        < (DbTransaction.twoSequentialNextIdentifiers
          (some [((1 : Int), ['a']), ((2 : Int), ['b'])])).2) := by
  refine ⟨rfl, by decide⟩

/-- C6 amended: two sequential `GetNextIdentifier` calls against the
same non-empty bucket within one transaction, with no intervening
operations, yield equal values — both are `max(id) + 1` over the
unchanged rows — not strictly increasing ones. -/
theorem C6_sequential_equal_amended (rows : List Row) (_hne : rows ≠ []) :
    (DbTransaction.twoSequentialNextIdentifiers (some rows)).1
      = sqlMaxIds (rows.map Prod.fst) + 1
    ∧ (DbTransaction.twoSequentialNextIdentifiers (some rows)).2
      = (DbTransaction.twoSequentialNextIdentifiers (some rows)).1 := by
  exact ⟨rfl, rfl⟩

theorem C6_sequential_equal_amended_witness :
    ([((1 : Int), ['a'])] : List Row) ≠ []
    ∧ (DbTransaction.twoSequentialNextIdentifiers
        (some [((1 : Int), ['a'])])).1
      = sqlMaxIds ([((1 : Int), ['a'])].map Prod.fst) + 1
    ∧ (DbTransaction.twoSequentialNextIdentifiers
        (some [((1 : Int), ['a'])])).2
      = (DbTransaction.twoSequentialNextIdentifiers
        (some [((1 : Int), ['a'])])).1 := by
  refine ⟨by decide, ?_, ?_⟩
  · exact (C6_sequential_equal_amended [((1 : Int), ['a'])] (by decide)).1
  · exact (C6_sequential_equal_amended [((1 : Int), ['a'])] (by decide)).2

/-- C7 counterexample: on an erroring query (missing bucket), the
transaction-level `GetNextIdentifier` and the second connection-level
variant return 0, not the claimed 1. -/
theorem C7_fallback_counterexample :
    DbTransaction.GetNextIdentifier none = 0
    ∧ DbConnectionV2.GetNextIdentifier none = 0
    ∧ (0 : Int) ≠ 1 := by
  refine ⟨rfl, rfl, by decide⟩

/-- C7 amended: every variant of `GetNextIdentifier` computes
`max(id) + 1`, returns 1 on an empty bucket, and never propagates a
query error — but the fallback value on an erroring query differs: the
connection variant of the connection file returns 1, while the second
connection variant and the transaction-level variant return 0 (the
error is only logged in all three). -/
theorem C7_fallback_amended :
    (∀ rows : Table,
      DbConnectionV1.GetNextIdentifier (some rows)
          = sqlMaxIds (rows.map Prod.fst) + 1
      ∧ DbConnectionV2.GetNextIdentifier (some rows)
          = sqlMaxIds (rows.map Prod.fst) + 1
      ∧ DbTransaction.GetNextIdentifier (some rows)
          = sqlMaxIds (rows.map Prod.fst) + 1)
    ∧ DbConnectionV1.GetNextIdentifier (some []) = 1
    ∧ DbConnectionV2.GetNextIdentifier (some []) = 1
    ∧ DbTransaction.GetNextIdentifier (some []) = 1
    ∧ DbConnectionV1.GetNextIdentifier none = 1
    ∧ DbConnectionV2.GetNextIdentifier none = 0
    ∧ DbTransaction.GetNextIdentifier none = 0 := by
  exact ⟨fun rows => ⟨rfl, rfl, rfl⟩, rfl, rfl, rfl, rfl, rfl, rfl⟩

/-- C8: `GetObject` on a key with no matching row fails with the
distinguished object-not-found error carrying the bucket name and the
key — a classifiable error kind, independent of message text — and on
an existing key it decodes and returns the stored object with no
error. -/
theorem C8_getObject_spec (tbl : KTable) (bucketName key : String) :
    (lookupKey tbl key = none →
      DbTransaction.GetObject tbl bucketName key
        = .error (.objectNotFound bucketName key))
    ∧ (∀ data j, lookupKey tbl key = some data → jsonParse data = some j →
        DbTransaction.GetObject tbl bucketName key = .ok j) := by
  constructor
  · intro h
    rw [DbTransaction.GetObject.eq_def, h]
  · intro data j h1 h2
    rw [DbTransaction.GetObject.eq_def, h1]
    show (match jsonParse data with
      | some j2 => Except.ok j2
      | none => Except.error GetErr.decodeFailed) = Except.ok j
    rw [h2]

theorem C8_getObject_spec_witness :
    lookupKey [("a", ['1'])] "b" = none
    ∧ DbTransaction.GetObject [("a", ['1'])] "endpoints" "b"
        = .error (.objectNotFound "endpoints" "b")
    ∧ lookupKey [("a", ['1'])] "a" = some ['1']
    ∧ jsonParse ['1'] = some (.num 1)
    ∧ DbTransaction.GetObject [("a", ['1'])] "endpoints" "a"
        = .ok (.num 1) := by
  refine ⟨rfl, ?_, rfl, rfl, ?_⟩
  · exact (C8_getObject_spec [("a", ['1'])] "endpoints" "b").1 rfl
  · exact (C8_getObject_spec [("a", ['1'])] "endpoints" "a").2
      ['1'] (.num 1) rfl rfl

/-- C9 counterexample: with a bucket holding the single key `ab` and
the prefix `a_`, `GetAllWithKeyPrefix` visits that object — the SQL
LIKE pattern treats the underscore as a single-character wildcard — even
though `a_` is not a prefix of `ab`, so the scan does not visit exactly
the objects whose keys share the given prefix. -/
theorem C9_prefix_counterexample :
    List.isPrefixOf ['a', '_'] ['a', 'b'] = false
    ∧ DbTransaction.GetAllWithKeyPrefix
        [(['a', 'b'], ['n', 'u', 'l', 'l'])] ['a', '_'] (fun _ => none)
        = ([Json.null], none) := by
  refine ⟨by decide, rfl⟩

/-- C9 amended: `GetAll` over a bucket whose rows all decode visits
each decoded object exactly once, in order; an error from the visit
function aborts the remaining scan, surfacing the error after the
failing object; and `GetAllWithKeyPrefix` visits exactly the objects
whose keys match the SQL LIKE pattern `prefix` followed by percent —
which, whenever the prefix contains no LIKE metacharacters (percent,
underscore, backslash), are exactly the objects whose keys share the
given prefix. -/
theorem C9_scan_amended :
    (∀ (rows : List Bytes) (visit : Json → Option String),
      (∀ r ∈ rows, (jsonParse r).isSome = true) → (∀ j, visit j = none) →
      DbTransaction.GetAll rows visit = (rows.filterMap jsonParse, none))
    ∧ (∀ (pre : List Bytes) (r : Bytes) (post : List Bytes)
        (visit : Json → Option String) (jv : Json) (e : String),
        (∀ x ∈ pre, ∃ jx, jsonParse x = some jx ∧ visit jx = none) →
        jsonParse r = some jv → visit jv = some e →
        DbTransaction.GetAll (pre ++ r :: post) visit
          = (pre.filterMap jsonParse ++ [jv],
              some (ScanErr.visitFailed e)))
    ∧ (∀ (rows : List (List Char × Bytes)) (p : List Char)
        (visit : Json → Option String), noLikeMeta p = true →
        DbTransaction.GetAllWithKeyPrefix rows p visit
          = DbTransaction.GetAll
              ((rows.filter (fun row => List.isPrefixOf p row.1)).map
                Prod.snd) visit) :=
  ⟨GetAll_visits_each_once, GetAll_abort, GetAllWithKeyPrefix_noMeta⟩

theorem C9_scan_amended_witness :
    DbTransaction.GetAll [['1']] (fun _ => none)
        = ([['1']].filterMap jsonParse, none)
    ∧ DbTransaction.GetAll ([] ++ ['2'] :: [['3']]) (fun _ => some "stop")
        = (List.filterMap jsonParse [] ++ [Json.num 2],
            some (ScanErr.visitFailed "stop"))
    ∧ DbTransaction.GetAllWithKeyPrefix
        [(['a', 'b'], ['1'])] ['a'] (fun _ => none)
        = DbTransaction.GetAll
            (([(['a', 'b'], ['1'])].filter
              (fun row => List.isPrefixOf ['a'] row.1)).map Prod.snd)
            (fun _ => none) := by
  refine ⟨?_, ?_, ?_⟩
  · exact C9_scan_amended.1 [['1']] (fun _ => none)
      (by intro r hr; simp at hr; subst hr; decide) (fun j => rfl)
  · exact C9_scan_amended.2.1 [] ['2'] [['3']] (fun _ => some "stop")
      (.num 2) "stop" (by intro x hx; simp at hx) rfl rfl
  · exact C9_scan_amended.2.2 [(['a', 'b'], ['1'])] ['a'] (fun _ => none)
      (by decide)

/-- C10: in the single-table `PostgresStore` variant, the transaction
handle created by `View` is marked non-writeable, and `Put` and
`Delete` invoked on it return the "transaction is read-only" error with
the `portainer_buckets` state unchanged and no SQL executed, while the
same calls on an `Update` transaction proceed to the upsert and the
delete — this variant actually enforces the read-only contract. -/
theorem C10_view_read_only (st : KVStore) (b k : String) (v : Bytes) :
    PostgresStore.viewTx.writeable = false
    ∧ PostgresBucket.Put PostgresStore.viewTx st b k v
        = (some "transaction is read-only", st)
    ∧ PostgresBucket.Delete PostgresStore.viewTx st b k
        = (some "transaction is read-only", st)
    ∧ PostgresStore.updateTx.writeable = true
    ∧ PostgresBucket.Put PostgresStore.updateTx st b k v
        = (none, kvUpsert st b k v)
    ∧ PostgresBucket.Delete PostgresStore.updateTx st b k
        = (none, kvDelete st b k) := by
  exact ⟨rfl, rfl, rfl, rfl, rfl, rfl⟩

end Portainer
